import Mathlib

/-!
Shallow embedding of the patch location/materialization core of
`crates/assistant/src/patch.rs`.

Text is modelled as a list of bytes (`List Nat`).  Character-boundary
clipping (`Rope::clip_offset`) is modelled as the identity, i.e. the model
treats every byte offset as a valid character boundary (ASCII content);
all concrete inputs used below are ASCII, where the source's clipping is
also the identity.
-/

namespace ZedPatch

/-- Rust's `u8::is_ascii_whitespace`: space, horizontal tab, line feed,
form feed, carriage return. -/
def isAsciiWhitespace (b : Nat) : Bool :=
  b == 32 || b == 9 || b == 10 || b == 12 || b == 13

/-- Maximum value of a `u32`, used by the saturating additions in
`resolve_location`. -/
def u32Max : Nat := 4294967295

/-- Model of `u32::saturating_add`. -/
def satAdd (a b : Nat) : Nat := min (a + b) u32Max

/-- A row/column position, mirroring `text::Point`. -/
structure Point where
  row : Nat
  col : Nat
deriving DecidableEq, Repr

/-- The lines of a byte buffer, split on the newline byte 10.  A buffer
always has at least one (possibly empty) line, matching the rope's row
arithmetic. -/
def lines : List Nat → List (List Nat)
  | [] => [[]]
  | b :: rest =>
    if b == 10 then
      [] :: lines rest
    else
      match lines rest with
      | l :: ls => (b :: l) :: ls
      | [] => [[b]]

/-- Length of a given row's line, mirroring `Rope::line_len`. -/
def lineLen (buf : List Nat) (row : Nat) : Nat :=
  ((lines buf).getD row []).length

/-- Row of the last line, mirroring `Rope::max_point().row`. -/
def maxRow (buf : List Nat) : Nat :=
  (lines buf).length - 1

/-- Byte offset of the start of a row, i.e. `Point::new(row, 0)` converted
to an offset. -/
def lineStartOff (buf : List Nat) : Nat → Nat
  | 0 => 0
  | r + 1 => lineStartOff buf r + lineLen buf r + 1

/-- Mirror of `Rope::offset_to_point` for in-range offsets. -/
def offsetToPoint : List Nat → Nat → Point
  | _, 0 => ⟨0, 0⟩
  | [], _ + 1 => ⟨0, 0⟩
  | b :: rest, o + 1 =>
    let p := offsetToPoint rest o
    if b == 10 then ⟨p.row + 1, p.col⟩
    else if p.row == 0 then ⟨0, p.col + 1⟩
    else p

/-- Mirror of `Rope::point_to_offset`. -/
def pointToOffset (buf : List Nat) (p : Point) : Nat :=
  lineStartOff buf p.row + p.col

/-- Byte range with `usize` endpoints (`Range<usize>` in the source; the
`end` field is named `stop` because `end` is reserved in Lean). -/
structure NatRange where
  start : Nat
  stop : Nat
deriving DecidableEq, Repr

/-- Mirror of `SearchDirection` in `patch.rs`; the derived Rust `Ord`
follows declaration order `Up < Left < Diagonal`. -/
inductive SearchDirection
  | Up
  | Left
  | Diagonal
deriving DecidableEq, Repr

/-- Index realizing the derived `Ord` on `SearchDirection`. -/
def dirIdx : SearchDirection → Nat
  | .Up => 0
  | .Left => 1
  | .Diagonal => 2

/-- Mirror of `SearchState` (cost plus arrival direction); the derived
Rust `Ord` is lexicographic on `(cost, direction)`. -/
structure SearchState where
  cost : Nat
  direction : SearchDirection
deriving DecidableEq, Repr

/-- The derived lexicographic `<=` on `SearchState`. -/
def stateLe (a b : SearchState) : Prop :=
  a.cost < b.cost ∨ (a.cost = b.cost ∧ dirIdx a.direction ≤ dirIdx b.direction)

instance (a b : SearchState) : Decidable (stateLe a b) := by
  unfold stateLe
  infer_instance

/-- Rust's `Ord::min` (returns the first argument when equal). -/
def minState (a b : SearchState) : SearchState :=
  if stateLe a b then a else b

/-- Cost of skipping an unmatched buffer byte
(`INSERTION_COST` / `WHITESPACE_INSERTION_COST`). -/
def insertionCost (b : Nat) : Nat :=
  if isAsciiWhitespace b then 1 else 3

/-- Cost of dropping an unmatched query byte
(`DELETION_COST` / `WHITESPACE_DELETION_COST`). -/
def deletionCost (q : Nat) : Nat :=
  if isAsciiWhitespace q then 1 else 10

/-- One cell of the search matrix: combine the three candidate states
exactly as `up.min(left).min(diagonal)` does in `resolve_location`. -/
def cellCombine (qb bb : Nat) (diagSt upSt leftSt : SearchState) : SearchState :=
  let del := deletionCost qb
  let ins := insertionCost bb
  let up : SearchState := ⟨satAdd upSt.cost del, .Up⟩
  let left : SearchState := ⟨satAdd leftSt.cost ins, .Left⟩
  let diag : SearchState :=
    ⟨if qb = bb then diagSt.cost else satAdd diagSt.cost (del + ins), .Diagonal⟩
  minState (minState up left) diag

/-- Default cell used for lookups (`SearchState::new(0, Diagonal)`, the
value the matrix is initialized with). -/
def defaultState : SearchState := ⟨0, .Diagonal⟩

/-- Cells of one matrix row for columns `1..`, walking the buffer bytes;
`leftSt` is the previously computed cell of this row, `prev` is the
remaining suffix of the previous row starting at the diagonal cell. -/
def rowCells (qb : Nat) : List Nat → SearchState → List SearchState → List SearchState
  | [], _, _ => []
  | bb :: brest, leftSt, prev =>
    let cell := cellCombine qb bb (prev.getD 0 defaultState) (prev.getD 1 defaultState) leftSt
    cell :: rowCells qb brest cell (prev.drop 1)

/-- A full matrix row for the query byte `qb`, whose column-0 cell holds
the accumulated leading deletion cost. -/
def nextRow (qb : Nat) (lead : Nat) (b : List Nat) (prev : List SearchState) : List SearchState :=
  let c0 : SearchState := ⟨lead, .Diagonal⟩
  c0 :: rowCells qb b c0 prev

/-- All remaining matrix rows, starting from the given previous row and
accumulated leading deletion cost. -/
def matrixRowsFrom (b : List Nat) : List Nat → Nat → List SearchState → List (List SearchState)
  | [], _, prev => [prev]
  | qb :: qrest, lead, prev =>
    let lead2 := satAdd lead (deletionCost qb)
    prev :: matrixRowsFrom b qrest lead2 (nextRow qb lead2 b prev)

/-- The `(|Q|+1) x (|B|+1)` search matrix of `resolve_location`, row by
row (row 0 is all `(0, Diagonal)`). -/
def matrixRows (q b : List Nat) : List (List SearchState) :=
  matrixRowsFrom b q 0 (List.replicate (b.length + 1) defaultState)

/-- Matrix cell lookup (`SearchMatrix::get`). -/
def matCell (q b : List Nat) (row col : Nat) : SearchState :=
  ((matrixRows q b).getD row []).getD col defaultState

/-- The final-row scan of `resolve_location`: starting from
`(u32::MAX, buffer_len)`, keep the first column of strictly smaller cost. -/
def bestEndScan (q b : List Nat) : Nat :=
  ((List.range b.length).foldl
    (fun acc i =>
      let cost := (matCell q b q.length (i + 1)).cost
      if cost < acc.1 then (cost, i + 1) else acc)
    (u32Max, b.length)).2

/-- The traceback loop of `resolve_location`, written with explicit fuel
(each iteration decreases `qix + bix`, so fuel `qix + bix` is enough);
returns the final buffer index. -/
def tracebackAux (q b : List Nat) : Nat → Nat → Nat → Nat
  | 0, _, bix => bix
  | _ + 1, 0, bix => bix
  | fuel + 1, qix + 1, bix =>
    if bix = 0 then bix
    else
      match (matCell q b (qix + 1) bix).direction with
      | .Diagonal => tracebackAux q b fuel qix (bix - 1)
      | .Up => tracebackAux q b fuel qix bix
      | .Left => tracebackAux q b fuel (qix + 1) (bix - 1)

/-- Mirror of `AssistantEditKind::resolve_location(buffer, search_query)`:
fill the matrix, pick the minimum-cost column of the final row, trace back
to the start, then widen both offsets to whole lines.  Offset clipping is
the identity in this model (see the file comment). -/
def resolveLocation (buffer searchQuery : List Nat) : NatRange :=
  let queryLen := searchQuery.length
  let bestBufferEnd := bestEndScan searchQuery buffer
  let bufferIx := tracebackAux searchQuery buffer (queryLen + bestBufferEnd) queryLen bestBufferEnd
  let startOffset := bufferIx
  let endOffset := bestBufferEnd
  let startPt := offsetToPoint buffer startOffset
  let endPt := offsetToPoint buffer endOffset
  ⟨startOffset - startPt.col, endOffset + (lineLen buffer endPt.row - endPt.col)⟩

/-- Mirror of `AssistantEditKind`.  Texts are byte lists; descriptions are
optional byte lists. -/
inductive AssistantEditKind
  | update (old_text new_text : List Nat) (description : Option (List Nat))
  | create (new_text : List Nat) (description : Option (List Nat))
  | insertBefore (old_text new_text : List Nat) (description : Option (List Nat))
  | insertAfter (old_text new_text : List Nat) (description : Option (List Nat))
  | delete (old_text : List Nat)
deriving DecidableEq, Repr

/-- Mirror of `AssistantEdit` (a path plus a kind); paths are modelled as
opaque ordered keys (`Nat`). -/
structure AssistantEdit where
  path : Nat
  kind : AssistantEditKind
deriving DecidableEq, Repr

/-- Mirror of `LocatedEdit`. -/
structure LocatedEdit where
  range : NatRange
  new_text : List Nat
  description : Option (List Nat)
  input_ix : Nat
deriving DecidableEq, Repr

/-- Mirror of `LocatedPatchBuffer` (path, content snapshot, located edits
sorted by range start). -/
structure LocatedPatchBuffer where
  path : Nat
  content : List Nat
  edits : List LocatedEdit
deriving DecidableEq, Repr

/-- Mirror of `AssistantEditKind::locate`. -/
def AssistantEditKind.locate : AssistantEditKind → Nat → List Nat → LocatedEdit
  | .update old_text new_text description, input_ix, buffer =>
    ⟨resolveLocation buffer old_text, new_text, description, input_ix⟩
  | .create new_text description, input_ix, buffer =>
    ⟨⟨0, buffer.length⟩, new_text, description, input_ix⟩
  | .insertBefore old_text new_text description, input_ix, buffer =>
    let r := resolveLocation buffer old_text
    ⟨⟨r.start, r.start⟩, new_text ++ [10], description, input_ix⟩
  | .insertAfter old_text new_text description, input_ix, buffer =>
    let r := resolveLocation buffer old_text
    ⟨⟨r.stop, r.stop⟩, 10 :: new_text, description, input_ix⟩
  | .delete old_text, input_ix, buffer =>
    ⟨resolveLocation buffer old_text, [], none, input_ix⟩

/-- Ordered insert-or-replace into a start-sorted edit list with unique
starts.  This realizes the `binary_search_by_key(&range.start)` in
`locate_patch`: on a sorted list, `Ok(ix)` (an edit with the same start
exists) replaces it, `Err(ix)` inserts at the sorted position. -/
def insertEdit : List LocatedEdit → LocatedEdit → List LocatedEdit
  | [], e => [e]
  | x :: xs, e =>
    if e.range.start < x.range.start then e :: x :: xs
    else if e.range.start = x.range.start then e :: xs
    else x :: insertEdit xs e

/-- State threaded through `locate_patch`: the buffers built so far
(`new_outputs`) plus, as instrumentation, the indices of the input edits
that were located freshly (rather than reused). -/
structure LocState where
  outputs : List LocatedPatchBuffer
  fresh : List Nat
deriving DecidableEq, Repr

/-- One iteration of the `locate_patch` loop for input edit `(i, e)`:
look up the previously located buffer for the path, find or create the
output buffer (loading content from the previous result or from the
environment `env`, skipping the edit if both fail), check reuse
eligibility against the previous revision's input edits, and insert or
replace the located edit keyed by range start.  The `findIdx?` /
`takeWhile`-position realize the path `binary_search_by_key` calls on the
path-sorted buffer lists. -/
def locateStep (oldInputs : List AssistantEdit) (oldBuffers : List LocatedPatchBuffer)
    (env : Nat → Option (List Nat)) (st : LocState) (ie : Nat × AssistantEdit) : LocState :=
  let i := ie.1
  let e := ie.2
  let oldBuf := oldBuffers.find? (fun b2 => b2.path == e.path)
  let found : Option (List LocatedPatchBuffer × Nat) :=
    match st.outputs.findIdx? (fun b2 => b2.path == e.path) with
    | some ix => some (st.outputs, ix)
    | none =>
      let content? : Option (List Nat) :=
        match oldBuf with
        | some ob => some ob.content
        | none => env e.path
      match content? with
      | none => none
      | some content =>
        let ix := (st.outputs.takeWhile (fun b2 => decide (b2.path < e.path))).length
        some (st.outputs.take ix ++ ⟨e.path, content, []⟩ :: st.outputs.drop ix, ix)
  match found with
  | none => st
  | some (outputs, ix) =>
    let buf := outputs.getD ix ⟨e.path, [], []⟩
    let oldLocated : Option LocatedEdit :=
      (oldInputs.findIdx? (fun oe => oe == e)).bind fun pos =>
        oldBuf.bind fun ob => ob.edits.find? (fun oldEdit => oldEdit.input_ix == pos)
    let freshHit := oldLocated.isNone
    let located :=
      match oldLocated with
      | some oldEdit => oldEdit
      | none => e.kind.locate i buf.content
    let located2 := { located with input_ix := i }
    let buf2 := { buf with edits := insertEdit buf.edits located2 }
    { outputs := outputs.set ix buf2,
      fresh := if freshHit then st.fresh ++ [i] else st.fresh }

/-- Mirror of `PatchStore::locate_patch`: fold `locateStep` over the
enumerated input edits, starting from empty outputs. -/
def locatePatch (inputs oldInputs : List AssistantEdit)
    (oldBuffers : List LocatedPatchBuffer) (env : Nat → Option (List Nat)) : LocState :=
  inputs.enum.foldl (locateStep oldInputs oldBuffers env) ⟨[], []⟩

/-- Two to the 64, for the `as usize` casts in the drift walk. -/
def u64Mod : Int := 18446744073709551616

/-- Model of `(x as isize + delta) as usize` (two's-complement wrap). -/
def usizeOfInt (x : Int) : Nat := (x % u64Mod).toNat

/-- Shift an edit's range by the running delta, mirroring
`(edit.range.start as isize + delta) as usize` for both endpoints. -/
def shiftEdit (delta : Int) (e : LocatedEdit) : LocatedEdit :=
  { e with range := ⟨usizeOfInt ((e.range.start : Int) + delta),
                     usizeOfInt ((e.range.stop : Int) + delta)⟩ }

/-- The inner `while let Some(edit) = patch_edits.peek_mut()` loop of the
drift walk in `create_branch_for_patch`, for one diff hunk: consume edits
until one with `diff_range.start >= edit.range.end` is seen, widening the
consumed edit when `diff_range.end > edit.range.start` and then applying
the current delta.  Returns the consumed (adjusted) edits in order and
the remaining ones. -/
def consumeEdits (diffStart diffStop newLen : Nat) (delta : Int) :
    List LocatedEdit → List LocatedEdit × List LocatedEdit
  | [] => ([], [])
  | e :: rest =>
    if diffStart ≥ e.range.stop then ([], e :: rest)
    else
      let r := e.range
      let r1 : NatRange :=
        if diffStop > r.start then
          ⟨min r.start diffStart, diffStart + newLen + (r.stop - diffStop)⟩
        else r
      let e2 := shiftEdit delta { e with range := r1 }
      let res := consumeEdits diffStart diffStop newLen delta rest
      (e2 :: res.1, res.2)

/-- The drift-adjustment merge walk of `create_branch_for_patch` (lines
94-120): walk the diff hunks in order, consuming edits per hunk via
`consumeEdits`, accumulating `delta += new_text.len() - diff_range.len()`,
and finally shifting all remaining edits by the total delta. -/
def applyDriftGo : List (NatRange × List Nat) → Int → List LocatedEdit → List LocatedEdit
  | [], delta, edits => edits.map (shiftEdit delta)
  | (dr, nt) :: hs, delta, edits =>
    let res := consumeEdits dr.start dr.stop nt.length delta edits
    res.1 ++ applyDriftGo hs (delta + (nt.length : Int) - ((dr.stop : Int) - (dr.start : Int))) res.2

/-- Entry point of the drift walk with initial delta 0. -/
def applyDrift (hunks : List (NatRange × List Nat)) (edits : List LocatedEdit) : List LocatedEdit :=
  applyDriftGo hunks 0 edits

/-- Anchor bias (`text::Bias`); the derived Rust `Ord` has
`Left < Right`. -/
inductive Bias
  | left
  | right
deriving DecidableEq, Repr

/-- Index realizing the derived `Ord` on `Bias`. -/
def biasIdx : Bias → Nat
  | .left => 0
  | .right => 1

/-- Model of `text::Anchor` for anchors created in a single static
snapshot: the resolved byte offset plus the bias.  `anchor_before(o)` is
`⟨o, left⟩` and `anchor_after(o)` is `⟨o, right⟩`; `Anchor::cmp` in that
snapshot compares resolved positions and then biases. -/
structure Anchor where
  offset : Nat
  bias : Bias
deriving DecidableEq, Repr

/-- Anchor range (`Range<Anchor>`; the `end` field is named `stop`). -/
structure AnchorRange where
  start : Anchor
  stop : Anchor
deriving DecidableEq, Repr

/-- Mirror of `Anchor::cmp` within one snapshot: resolved offset, then
bias. -/
def anchorCmp (a b : Anchor) : Ordering :=
  (compare a.offset b.offset).then (compare (biasIdx a.bias) (biasIdx b.bias))

/-- Mirror of `AnchorRangeExt::cmp`: start ascending, then end
descending (so that earlier, larger ranges come first). -/
def rangeCmpR (a b : AnchorRange) : Ordering :=
  (anchorCmp a.start b.start).then (anchorCmp b.stop a.stop)

/-- Mirror of `ResolvedEdit`. -/
structure ResolvedEdit where
  range : AnchorRange
  new_text : List Nat
  description : Option (List Nat)
deriving DecidableEq, Repr

/-- Mirror of `ResolvedEdit::try_merge(self, other)`: `none` models the
`false` return (no mutation), `some e` the `true` return with the mutated
`self`.  `to_offset` of an anchor is its stored offset in this static
model. -/
def tryMerge (self other : ResolvedEdit) : Option ResolvedEdit :=
  if anchorCmp self.range.start other.range.start = .gt
      ∨ anchorCmp self.range.stop other.range.stop = .lt then
    none
  else
    let otherStart := other.range.start.offset
    let otherStop := other.range.stop.offset
    let selfStart := self.range.start.offset
    if otherStart = otherStop ∧ otherStart = selfStart then
      some { self with
        new_text := other.new_text ++ 10 :: self.new_text,
        range := ⟨other.range.start, self.range.stop⟩,
        description :=
          match self.description, other.description with
          | some d, some od => some (od ++ 10 :: d)
          | d, _ => d }
    else
      some { self with
        description :=
          match self.description, other.description with
          | some d, some od => some (d ++ 10 :: od)
          | d, _ => d }

/-- Stable ordered insertion realizing the stable `sort_by` used in
`group_edits`: the new edit goes before the first strictly greater
element, hence after all equal ones. -/
def insertSortedEdit (e : ResolvedEdit) : List ResolvedEdit → List ResolvedEdit
  | [] => [e]
  | x :: xs =>
    if rangeCmpR x.range e.range = .gt then e :: x :: xs
    else x :: insertSortedEdit e xs

/-- Stable insertion sort by `rangeCmpR` (extensionally equal to the
source's stable `sort_by`). -/
def sortEdits (es : List ResolvedEdit) : List ResolvedEdit :=
  es.foldl (fun acc e => insertSortedEdit e acc) []

/-- Tail of `Vec::dedup_by(|a, b| b.try_merge(a, ..))`: `cur` is the last
retained (possibly already merged) edit; each next edit is merged into it
when `try_merge` succeeds, else `cur` is emitted and the next edit becomes
current. -/
def dedupMergeGo (cur : ResolvedEdit) : List ResolvedEdit → List ResolvedEdit
  | [] => [cur]
  | y :: ys =>
    match tryMerge cur y with
    | some cur2 => dedupMergeGo cur2 ys
    | none => cur :: dedupMergeGo y ys

/-- The merge pass `edits.dedup_by(|a, b| b.try_merge(a, &snapshot))`. -/
def dedupMerge : List ResolvedEdit → List ResolvedEdit
  | [] => []
  | x :: xs => dedupMergeGo x xs

/-- Mirror of `ResolvedEditGroup`. -/
structure ResolvedEditGroup where
  context_range : AnchorRange
  edits : List ResolvedEdit
deriving DecidableEq, Repr

/-- Context range of one edit in `group_edits`: its line span padded five
rows up and down, clipped to the document, anchored `before` the padded
start point and `after` the padded end-of-line point. -/
def contextRangeOf (snap : List Nat) (e : ResolvedEdit) : AnchorRange :=
  let sp := offsetToPoint snap e.range.start.offset
  let ep := offsetToPoint snap e.range.stop.offset
  let startRow := sp.row - 5
  let endRow := min (ep.row + 5) (maxRow snap)
  ⟨⟨pointToOffset snap ⟨startRow, 0⟩, .left⟩,
   ⟨pointToOffset snap ⟨endRow, lineLen snap endRow⟩, .right⟩⟩

/-- One iteration of the grouping loop of `group_edits`: merge into the
last group when its context-range end is at or after the new context
start, else start a new group. -/
def groupStep (snap : List Nat) (groups : List ResolvedEditGroup) (e : ResolvedEdit) :
    List ResolvedEditGroup :=
  let ctx := contextRangeOf snap e
  match groups.getLast? with
  | some lg =>
    if anchorCmp lg.context_range.stop ctx.start = .lt then
      groups ++ [⟨ctx, [e]⟩]
    else
      groups.dropLast ++ [⟨⟨lg.context_range.start, ctx.stop⟩, lg.edits ++ [e]⟩]
  | none => [⟨ctx, [e]⟩]

/-- The grouping pass of `group_edits` over already-merged edits. -/
def groupingPass (snap : List Nat) (es : List ResolvedEdit) : List ResolvedEditGroup :=
  es.foldl (groupStep snap) []

/-- Mirror of `AssistantPatch::group_edits`: stable sort, containment
merge, then grouping. -/
def groupEdits (es : List ResolvedEdit) (snap : List Nat) : List ResolvedEditGroup :=
  groupingPass snap (dedupMerge (sortEdits es))

/-- Mirror of `AssistantPatchResolutionError`. -/
structure AssistantPatchResolutionError where
  edit_ix : Nat
  message : List Nat
deriving DecidableEq, Repr

/-- Mirror of `BranchEdit`; `edit_id` is the opaque identifier returned by
the buffer's edit primitive. -/
structure BranchEdit where
  range : AnchorRange
  new_text : List Nat
  description : Option (List Nat)
  edit_id : Option Nat
deriving DecidableEq, Repr

/-- Mirror of `BranchEditGroup`. -/
structure BranchEditGroup where
  context_range : AnchorRange
  edits : List BranchEdit
deriving DecidableEq, Repr

/-- Mirror of `AssistantBranch`; the per-buffer map is modelled as an
association list keyed by the branch buffer's path. -/
structure AssistantBranch where
  edit_groups : List (Nat × List BranchEditGroup)
  errors : List AssistantPatchResolutionError
deriving DecidableEq, Repr

/-- Outcome of `open_buffer_for_edit_path` followed by awaiting the open:
`noBuffer` models the `None` task (silently skipped in the source),
`openErr` models a failed await (propagated with `?`), `opened` yields the
live buffer content. -/
inductive OpenOutcome
  | noBuffer
  | openErr
  | opened (live : List Nat)
deriving DecidableEq, Repr

/-- External capabilities used by `create_branch_for_patch`.
`diffFor` is modelled from the spec: the buffer diff capability yields
ordered `(old-range, new-text)` hunks between the stored content snapshot
and the live content (`Buffer::diff_rope` is not part of the sources
under review).  `editId` yields the opaque identifier of the n-th edit
application. -/
structure BranchEnv where
  openBuf : Nat → OpenOutcome
  diffFor : Nat → List (NatRange × List Nat)
  editId : Nat → Option Nat

/-- Apply one group's edits to the branch buffer, collecting the opaque
edit identifiers; `n` counts applications performed so far. -/
def attachIdsGroup (env : BranchEnv) (n : Nat) (g : ResolvedEditGroup) : Nat × BranchEditGroup :=
  let res := g.edits.foldl
    (fun (acc : Nat × List BranchEdit) e =>
      (acc.1 + 1, acc.2 ++ [⟨e.range, e.new_text, e.description, env.editId acc.1⟩]))
    (n, [])
  (res.1, ⟨g.context_range, res.2⟩)

/-- Apply all groups of one file in order. -/
def attachIds (env : BranchEnv) (n : Nat) (gs : List ResolvedEditGroup) :
    Nat × List BranchEditGroup :=
  gs.foldl
    (fun (acc : Nat × List BranchEditGroup) g =>
      let r := attachIdsGroup env acc.1 g
      (r.1, acc.2 ++ [r.2]))
    (n, [])

/-- Main loop of `create_branch_for_patch` over the located patch
buffers: a `noBuffer` open outcome silently skips the file, a failed open
aborts the whole materialization (the `?` on the awaited task), and an
opened file is drift-adjusted, grouped, and applied to its branch
buffer. -/
def createBranchGo (env : BranchEnv) : List LocatedPatchBuffer → Nat → AssistantBranch →
    Except Unit AssistantBranch
  | [], _, acc => .ok acc
  | pb :: rest, n, acc =>
    match env.openBuf pb.path with
    | .noBuffer => createBranchGo env rest n acc
    | .openErr => .error ()
    | .opened live =>
      let adjusted := applyDrift (env.diffFor pb.path) pb.edits
      let resolved := adjusted.map fun e =>
        (⟨⟨⟨e.range.start, .left⟩, ⟨e.range.stop, .right⟩⟩, e.new_text, e.description⟩ : ResolvedEdit)
      let groups := groupEdits resolved live
      let applied := attachIds env n groups
      createBranchGo env rest applied.1
        { acc with edit_groups := acc.edit_groups ++ [(pb.path, applied.2)] }

/-- Mirror of `PatchStore::create_branch_for_patch` for a stored located
patch. -/
def createBranchForPatch (bufs : List LocatedPatchBuffer) (env : BranchEnv) :
    Except Unit AssistantBranch :=
  createBranchGo env bufs 0 ⟨[], []⟩

/-- State of the patch store's job bookkeeping, abstracted per provenance
key: the next job generation, the in-flight job per key (the stored
`locate_task` handle), and the generation whose result is currently
cached per key. -/
structure StoreModel where
  nextJob : Nat
  inflight : Nat → Option Nat
  committed : Nat → Option Nat

/-- Events of the store model: `submit` models `PatchStore::insert`
(spawn a new locate job, overwriting — and thereby dropping — the old
task handle), `complete` models a job's completion attempting to commit
its result. -/
inductive StoreEvent
  | submit (key : Nat)
  | complete (key : Nat) (job : Nat)

/-- Transition function.  Modelled from the spec: dropping a task handle
cancels the task (the gpui `Task` type is not part of the sources under
review), so a `complete` event for a job that is no longer the stored
in-flight job for its key has no effect — the superseded job never runs
its commit.  A submit stores a fresh generation as the key's in-flight
job; a commit replaces the cached result and clears the job handle. -/
def storeStep (s : StoreModel) : StoreEvent → StoreModel
  | .submit k =>
    { nextJob := s.nextJob + 1,
      inflight := fun k2 => if k2 = k then some s.nextJob else s.inflight k2,
      committed := s.committed }
  | .complete k j =>
    if s.inflight k = some j then
      { s with
        committed := fun k2 => if k2 = k then some j else s.committed k2,
        inflight := fun k2 => if k2 = k then none else s.inflight k2 }
    else s

/-- The empty store. -/
def initStore : StoreModel := ⟨0, fun _ => none, fun _ => none⟩

/-- Run a list of events from the empty store. -/
def runStore (es : List StoreEvent) : StoreModel :=
  es.foldl storeStep initStore

/-- Mirror of `AssistantPatchStatus`. -/
inductive AssistantPatchStatus
  | pending
  | ready
deriving DecidableEq, Repr

/-- Model of `Arc<[AssistantEdit]>`: the allocation identity plus the
stored slice.  In a real heap two arcs with the same allocation hold the
same slice; `allocId` stands for the allocation address. -/
structure ArcEdits where
  allocId : Nat
  val : List AssistantEdit
deriving DecidableEq, Repr

/-- Mirror of `Arc::ptr_eq`: allocation identity only. -/
def arcPtrEq (a b : ArcEdits) : Bool :=
  a.allocId == b.allocId

/-- Mirror of `AssistantPatch`; the context range is modelled as an
anchor range with structural equality, the title as a byte list. -/
structure AssistantPatch where
  range : AnchorRange
  title : List Nat
  edits : ArcEdits
  status : AssistantPatchStatus
deriving DecidableEq, Repr

/-- Mirror of `impl PartialEq for AssistantPatch`: range, title, and
pointer equality of the edits arc (the status is not compared). -/
def assistantPatchEq (a b : AssistantPatch) : Bool :=
  a.range == b.range && a.title == b.title && arcPtrEq a.edits b.edits

/-- Invariant of the store model: every in-flight job generation is below
the generation counter and above every committed generation of its key,
and committed generations are below the counter. -/
def StoreInv (s : StoreModel) : Prop :=
  ∀ k,
    (∀ j, s.inflight k = some j →
      j < s.nextJob ∧ ∀ jc, s.committed k = some jc → jc < j) ∧
    (∀ jc, s.committed k = some jc → jc < s.nextJob)

/-- Sortedness of every output buffer's edit list by range start. -/
def OutputsSorted (st : LocState) : Prop :=
  ∀ buf ∈ st.outputs,
    List.Pairwise (fun x y => x.range.start < y.range.start) buf.edits

theorem getD_replicate_self {α : Type} (d : α) : ∀ (n i : Nat), (List.replicate n d).getD i d = d
  | 0, _ => rfl
  | _ + 1, 0 => rfl
  | n + 1, i + 1 => getD_replicate_self d n i

theorem getD_drop_one {α : Type} (l : List α) (i : Nat) (d : α) :
    (l.drop 1).getD i d = l.getD (i + 1) d := by
  cases l <;> rfl

theorem matrixRowsFrom_getD_zero (b : List Nat) (q : List Nat) (lead : Nat)
    (prev : List SearchState) : (matrixRowsFrom b q lead prev).getD 0 [] = prev := by
  cases q <;> rfl

theorem matrixRowsFrom_succ (b : List Nat) :
    ∀ (q : List Nat) (lead : Nat) (prev : List SearchState) (r : Nat), r < q.length →
    ∃ lead2, (matrixRowsFrom b q lead prev).getD (r + 1) [] =
      nextRow (q.getD r 0) lead2 b ((matrixRowsFrom b q lead prev).getD r []) := by
  intro q
  induction q with
  | nil => intro lead prev r hr; simp at hr
  | cons qb qrest ih =>
    intro lead prev r hr
    cases r with
    | zero =>
      refine ⟨satAdd lead (deletionCost qb), ?_⟩
      show (matrixRowsFrom b qrest _ _).getD 0 [] = _
      rw [matrixRowsFrom_getD_zero]
      rfl
    | succ r2 =>
      have hr2 : r2 < qrest.length := by simpa using hr
      obtain ⟨lead2, h⟩ := ih (satAdd lead (deletionCost qb))
        (nextRow qb (satAdd lead (deletionCost qb)) b prev) r2 hr2
      exact ⟨lead2, h⟩

theorem rowCells_getD (qb : Nat) :
    ∀ (bs : List Nat) (prev : List SearchState) (l : SearchState) (c : Nat), c < bs.length →
    (rowCells qb bs l prev).getD c defaultState =
      cellCombine qb (bs.getD c 0) (prev.getD c defaultState) (prev.getD (c + 1) defaultState)
        (if c = 0 then l else (rowCells qb bs l prev).getD (c - 1) defaultState) := by
  intro bs
  induction bs with
  | nil => intro prev l c hc; simp at hc
  | cons bb brest ih =>
    intro prev l c hc
    cases c with
    | zero => rfl
    | succ c2 =>
      have hc2 : c2 < brest.length := by simpa using hc
      have step : (rowCells qb (bb :: brest) l prev).getD (c2 + 1) defaultState =
          (rowCells qb brest
            (cellCombine qb bb (prev.getD 0 defaultState) (prev.getD 1 defaultState) l)
            (prev.drop 1)).getD c2 defaultState := rfl
      rw [step, ih (prev.drop 1) _ c2 hc2]
      rw [getD_drop_one, getD_drop_one]
      cases c2 with
      | zero => rfl
      | succ c3 =>
        simp only [Nat.succ_ne_zero, if_false, Nat.add_sub_cancel]
        rfl

theorem matCell_succ (q b : List Nat) (r c : Nat) (hr : r < q.length) (hc : c < b.length) :
    matCell q b (r + 1) (c + 1) =
      cellCombine (q.getD r 0) (b.getD c 0) (matCell q b r c) (matCell q b r (c + 1))
        (matCell q b (r + 1) c) := by
  obtain ⟨lead2, hrow⟩ := matrixRowsFrom_succ b q 0 (List.replicate (b.length + 1) defaultState) r hr
  have hnext : matCell q b (r + 1) (c + 1) =
      (rowCells (q.getD r 0) b ⟨lead2, .Diagonal⟩ ((matrixRows q b).getD r [])).getD c
        defaultState := by
    show ((matrixRows q b).getD (r + 1) []).getD (c + 1) defaultState = _
    rw [show (matrixRows q b).getD (r + 1) [] =
      nextRow (q.getD r 0) lead2 b ((matrixRows q b).getD r []) from hrow]
    rfl
  have hleft : matCell q b (r + 1) c =
      if c = 0 then (⟨lead2, .Diagonal⟩ : SearchState)
      else (rowCells (q.getD r 0) b ⟨lead2, .Diagonal⟩ ((matrixRows q b).getD r [])).getD (c - 1)
        defaultState := by
    show ((matrixRows q b).getD (r + 1) []).getD c defaultState = _
    rw [show (matrixRows q b).getD (r + 1) [] =
      nextRow (q.getD r 0) lead2 b ((matrixRows q b).getD r []) from hrow]
    cases c with
    | zero => rfl
    | succ c2 => simp only [Nat.succ_ne_zero, if_false, Nat.add_sub_cancel]; rfl
  rw [hnext, rowCells_getD (q.getD r 0) b ((matrixRows q b).getD r []) ⟨lead2, .Diagonal⟩ c hc,
    ← hleft]
  rfl

theorem cellCombine_cases (qb bb : Nat) (dSt uSt lSt : SearchState) :
    (satAdd uSt.cost (deletionCost qb) ≤ satAdd lSt.cost (insertionCost bb) →
      satAdd uSt.cost (deletionCost qb) ≤
        (if qb = bb then dSt.cost else satAdd dSt.cost (deletionCost qb + insertionCost bb)) →
      cellCombine qb bb dSt uSt lSt = ⟨satAdd uSt.cost (deletionCost qb), .Up⟩) ∧
    (satAdd lSt.cost (insertionCost bb) < satAdd uSt.cost (deletionCost qb) →
      satAdd lSt.cost (insertionCost bb) ≤
        (if qb = bb then dSt.cost else satAdd dSt.cost (deletionCost qb + insertionCost bb)) →
      cellCombine qb bb dSt uSt lSt = ⟨satAdd lSt.cost (insertionCost bb), .Left⟩) ∧
    ((if qb = bb then dSt.cost else satAdd dSt.cost (deletionCost qb + insertionCost bb)) <
        satAdd uSt.cost (deletionCost qb) →
      (if qb = bb then dSt.cost else satAdd dSt.cost (deletionCost qb + insertionCost bb)) <
        satAdd lSt.cost (insertionCost bb) →
      cellCombine qb bb dSt uSt lSt =
        ⟨if qb = bb then dSt.cost else satAdd dSt.cost (deletionCost qb + insertionCost bb),
         .Diagonal⟩) := by
  set U := satAdd uSt.cost (deletionCost qb) with hU
  set L := satAdd lSt.cost (insertionCost bb) with hL
  set D := if qb = bb then dSt.cost else satAdd dSt.cost (deletionCost qb + insertionCost bb)
    with hD
  have hcc : cellCombine qb bb dSt uSt lSt =
      minState (minState ⟨U, .Up⟩ ⟨L, .Left⟩) ⟨D, .Diagonal⟩ := rfl
  refine ⟨?_, ?_, ?_⟩
  · intro h1 h2
    have s1 : stateLe ⟨U, .Up⟩ ⟨L, .Left⟩ := by
      simp only [stateLe, dirIdx]; omega
    have s2 : stateLe ⟨U, .Up⟩ ⟨D, .Diagonal⟩ := by
      simp only [stateLe, dirIdx]; omega
    rw [hcc]
    simp only [minState]
    rw [if_pos s1, if_pos s2]
  · intro h1 h2
    have s1 : ¬ stateLe ⟨U, .Up⟩ ⟨L, .Left⟩ := by
      simp only [stateLe, dirIdx]; omega
    have s2 : stateLe ⟨L, .Left⟩ ⟨D, .Diagonal⟩ := by
      simp only [stateLe, dirIdx]; omega
    rw [hcc]
    simp only [minState]
    rw [if_neg s1, if_pos s2]
  · intro h1 h2
    rw [hcc]
    simp only [minState]
    by_cases s1 : stateLe ⟨U, .Up⟩ ⟨L, .Left⟩
    · have s2 : ¬ stateLe ⟨U, .Up⟩ ⟨D, .Diagonal⟩ := by
        simp only [stateLe, dirIdx]; omega
      rw [if_pos s1, if_neg s2]
    · have s2 : ¬ stateLe ⟨L, .Left⟩ ⟨D, .Diagonal⟩ := by
        simp only [stateLe, dirIdx]; omega
      rw [if_neg s1, if_neg s2]

/-- C3: the claim states that on equal candidate costs the recorded
direction prefers "skip a B byte" (Left) over "drop a Q byte" (Up) over
"diagonal".  On query `"a\n"` and buffer `"a "`, at cell `(2, 2)` all
three candidate costs are 2, yet the recorded direction is `Up`
("drop a Q byte"), not `Left`: the derived order `Up < Left < Diagonal`
combined with `up.min(left).min(diagonal)` prefers `Up` on ties. -/
theorem C3_counterexample :
    satAdd (matCell [97, 10] [97, 32] 1 2).cost (deletionCost 10) = 2 ∧
    satAdd (matCell [97, 10] [97, 32] 2 1).cost (insertionCost 32) = 2 ∧
    satAdd (matCell [97, 10] [97, 32] 1 1).cost (deletionCost 10 + insertionCost 32) = 2 ∧
    matCell [97, 10] [97, 32] 2 2 = ⟨2, .Up⟩ ∧
    SearchDirection.Up ≠ SearchDirection.Left := by
  refine ⟨by decide, by decide, by decide, by decide, by decide⟩

/-- C3 (amended): in every cell of the search matrix the recorded state
is the candidate of minimal cost, and when candidate costs tie the
recorded direction prefers "drop a Q byte" (`Up`) over "skip a B byte"
(`Left`) over "diagonal" — the converse of the claimed order. -/
theorem C3_amended_tiebreak (q b : List Nat) (r c : Nat) (hr : r < q.length)
    (hc : c < b.length) :
    (satAdd (matCell q b r (c + 1)).cost (deletionCost (q.getD r 0)) ≤
        satAdd (matCell q b (r + 1) c).cost (insertionCost (b.getD c 0)) →
      satAdd (matCell q b r (c + 1)).cost (deletionCost (q.getD r 0)) ≤
        (if q.getD r 0 = b.getD c 0 then (matCell q b r c).cost
         else satAdd (matCell q b r c).cost (deletionCost (q.getD r 0) + insertionCost (b.getD c 0))) →
      matCell q b (r + 1) (c + 1) =
        ⟨satAdd (matCell q b r (c + 1)).cost (deletionCost (q.getD r 0)), .Up⟩) ∧
    (satAdd (matCell q b (r + 1) c).cost (insertionCost (b.getD c 0)) <
        satAdd (matCell q b r (c + 1)).cost (deletionCost (q.getD r 0)) →
      satAdd (matCell q b (r + 1) c).cost (insertionCost (b.getD c 0)) ≤
        (if q.getD r 0 = b.getD c 0 then (matCell q b r c).cost
         else satAdd (matCell q b r c).cost (deletionCost (q.getD r 0) + insertionCost (b.getD c 0))) →
      matCell q b (r + 1) (c + 1) =
        ⟨satAdd (matCell q b (r + 1) c).cost (insertionCost (b.getD c 0)), .Left⟩) ∧
    ((if q.getD r 0 = b.getD c 0 then (matCell q b r c).cost
        else satAdd (matCell q b r c).cost (deletionCost (q.getD r 0) + insertionCost (b.getD c 0))) <
        satAdd (matCell q b r (c + 1)).cost (deletionCost (q.getD r 0)) →
      (if q.getD r 0 = b.getD c 0 then (matCell q b r c).cost
        else satAdd (matCell q b r c).cost (deletionCost (q.getD r 0) + insertionCost (b.getD c 0))) <
        satAdd (matCell q b (r + 1) c).cost (insertionCost (b.getD c 0)) →
      matCell q b (r + 1) (c + 1) =
        ⟨if q.getD r 0 = b.getD c 0 then (matCell q b r c).cost
          else satAdd (matCell q b r c).cost (deletionCost (q.getD r 0) + insertionCost (b.getD c 0)),
         .Diagonal⟩) := by
  have h := cellCombine_cases (q.getD r 0) (b.getD c 0) (matCell q b r c) (matCell q b r (c + 1))
    (matCell q b (r + 1) c)
  rw [matCell_succ q b r c hr hc]
  exact h

/-- C3 (amended) witness: at query `"a"`, buffer `"a"`, cell `(1, 1)`, the
diagonal candidate (a match, cost 0) beats the other candidates, so the
recorded cell is `(0, Diagonal)`. -/
theorem C3_amended_tiebreak_witness : matCell [97] [97] 1 1 = ⟨0, .Diagonal⟩ := by
  have h := (C3_amended_tiebreak [97] [97] 0 0 (by decide) (by decide)).2.2
    (by decide) (by decide)
  simpa using h

theorem matCell_nil_q (b : List Nat) (r k : Nat) : matCell [] b r k = defaultState := by
  cases r with
  | zero =>
    show (List.replicate (b.length + 1) defaultState).getD k defaultState = defaultState
    exact getD_replicate_self _ _ _
  | succ r2 => rfl

theorem foldl_scan_stay (b : List Nat) :
    ∀ (l : List Nat) (t : Nat),
    l.foldl (fun (acc : Nat × Nat) i => if (0 : Nat) < acc.1 then ((0 : Nat), i + 1) else acc)
      (0, t) = (0, t)
  | [], _ => rfl
  | x :: xs, t => by
    rw [List.foldl_cons, if_neg (by omega)]
    exact foldl_scan_stay b xs t

theorem bestEndScan_empty_query (b : List Nat) :
    bestEndScan [] b = if b.length = 0 then 0 else 1 := by
  unfold bestEndScan
  simp only [List.length_nil, matCell_nil_q, defaultState]
  cases hb : b.length with
  | zero => simp
  | succ n =>
    rw [List.range_succ_eq_map, List.foldl_cons, if_pos (by simp [u32Max])]
    simp only [Nat.succ_ne_zero, if_false]
    exact congrArg Prod.snd (foldl_scan_stay b _ 1)

theorem tracebackAux_qzero (q b : List Nat) (fuel bix : Nat) :
    tracebackAux q b fuel 0 bix = bix := by
  cases fuel <;> rfl

theorem lines_ne_nil : ∀ b : List Nat, lines b ≠ [] := by
  intro b
  induction b with
  | nil => simp [lines]
  | cons c rest ih =>
    simp only [lines]
    split
    · simp
    · split <;> simp

/-- C9: the claim states that an empty query yields the empty range
`0..0` for every buffer.  On the one-byte buffer `"a"` the code returns
`0..1` (the whole first line): the final-row scan starts at
`best_cost = u32::MAX`, so column 1 always wins and the end offset is
line-snapped to the end of its line. -/
theorem C9_counterexample :
    resolveLocation [97] [] = ⟨0, 1⟩ ∧ (⟨0, 1⟩ : NatRange) ≠ ⟨0, 0⟩ := by
  refine ⟨by decide, by decide⟩

/-- C9 (amended): with an empty query, `resolve_location` returns `0..0`
only on the empty buffer; on a nonempty buffer it returns the whole line
containing offset 1 — the entire first line when the buffer does not
start with a newline, else the offset range from 1 to the end of the
second line. -/
theorem C9_amended_empty_query (b : List Nat) :
    (b = [] → resolveLocation b [] = ⟨0, 0⟩) ∧
    (∀ c rest, b = c :: rest → c ≠ 10 →
      resolveLocation b [] = ⟨0, lineLen b 0⟩ ∧ 1 ≤ lineLen b 0) ∧
    (∀ rest, b = 10 :: rest → resolveLocation b [] = ⟨1, 1 + lineLen b 1⟩) := by
  refine ⟨?_, ?_, ?_⟩
  · intro hb; subst hb; decide
  · intro c rest hb hc
    subst hb
    have hc2 : (c == 10) = false := by simpa using hc
    have hlen : 1 ≤ lineLen (c :: rest) 0 := by
      unfold lineLen
      simp only [lines, hc2, Bool.false_eq_true, if_false]
      obtain ⟨l, ls, hl⟩ := List.exists_cons_of_ne_nil (lines_ne_nil rest)
      rw [hl]
      simp
    refine ⟨?_, hlen⟩
    unfold resolveLocation
    rw [bestEndScan_empty_query]
    simp only [List.length_nil, List.length_cons, Nat.succ_ne_zero, if_false]
    rw [tracebackAux_qzero]
    have hpt : offsetToPoint (c :: rest) 1 = ⟨0, 1⟩ := by
      simp [offsetToPoint, hc2]
    rw [hpt]
    show (⟨1 - 1, 1 + (lineLen (c :: rest) 0 - 1)⟩ : NatRange) = ⟨0, lineLen (c :: rest) 0⟩
    have : 1 + (lineLen (c :: rest) 0 - 1) = lineLen (c :: rest) 0 := by omega
    rw [this]
  · intro rest hb
    subst hb
    unfold resolveLocation
    rw [bestEndScan_empty_query]
    simp only [List.length_nil, List.length_cons, Nat.succ_ne_zero, if_false]
    rw [tracebackAux_qzero]
    have hpt : offsetToPoint (10 :: rest) 1 = ⟨1, 0⟩ := by
      simp [offsetToPoint]
    rw [hpt]
    show (⟨1 - 0, 1 + (lineLen (10 :: rest) 1 - 0)⟩ : NatRange) = ⟨1, 1 + lineLen (10 :: rest) 1⟩
    simp

/-- C9 (amended) witness: on the buffer `"ab"` the empty query resolves
to the whole first line `0..2`. -/
theorem C9_amended_empty_query_witness : resolveLocation [97, 98] [] = ⟨0, 2⟩ := by
  have h := ((C9_amended_empty_query [97, 98]).2.1 97 [98] rfl (by decide)).1
  simpa using h

/-- C4: evaluation of the drift walk at a failing input.  The edit spans
`5..10`; the first hunk `0..1 → ""` lies entirely before it and the
second hunk `6..7 → "0123456789"` intersects it.  The claim requires the
edit to receive the length delta of hunks before it (start 4) and to be
widened to cover the intersecting hunk's ten-byte new text; instead the
walk consumes the edit at the first hunk (whose start, 0, is below the
edit's end, 10) with delta 0 and no widening, leaving `5..10`, which is
too narrow to cover the second hunk's new text and misses the first
hunk's delta. -/
theorem C4_code_eval :
    applyDrift [(⟨0, 1⟩, []), (⟨6, 7⟩, [48, 49, 50, 51, 52, 53, 54, 55, 56, 57])]
        [⟨⟨5, 10⟩, [], none, 0⟩] = [⟨⟨5, 10⟩, [], none, 0⟩] ∧
    (6 < 10 ∧ 5 < 7) ∧
    10 - 5 < 10 ∧
    (5 : Nat) ≠ 4 := by
  refine ⟨by decide, by decide, by decide, by decide⟩

theorem storeInv_init : StoreInv initStore := by
  intro k
  refine ⟨fun j h => ?_, fun jc h => ?_⟩ <;> simp [initStore] at h

theorem storeInv_step (s : StoreModel) (e : StoreEvent) (h : StoreInv s) :
    StoreInv (storeStep s e) := by
  cases e with
  | submit k2 =>
    intro k
    refine ⟨fun j hj => ?_, fun jc hjc => ?_⟩
    · simp only [storeStep] at hj
      by_cases hk : k = k2
      · rw [if_pos hk] at hj
        have hjv : j = s.nextJob := by
          have := hj
          simp at this
          omega
        refine ⟨by simp [storeStep]; omega, fun jc hjc => ?_⟩
        have := (h k).2 jc hjc
        omega
      · rw [if_neg hk] at hj
        obtain ⟨h1, h2⟩ := (h k).1 j hj
        exact ⟨by simp [storeStep]; omega, h2⟩
    · have := (h k).2 jc hjc
      simp [storeStep]
      omega
  | complete k2 j2 =>
    by_cases hin : s.inflight k2 = some j2
    · intro k
      simp only [storeStep, if_pos hin]
      refine ⟨fun j hj => ?_, fun jc hjc => ?_⟩
      · by_cases hk : k = k2
        · rw [if_pos hk] at hj; simp at hj
        · rw [if_neg hk] at hj
          obtain ⟨h1, h2⟩ := (h k).1 j hj
          refine ⟨h1, fun jc hjc => ?_⟩
          rw [if_neg hk] at hjc
          exact h2 jc hjc
      · by_cases hk : k = k2
        · rw [if_pos hk] at hjc
          have hjv : jc = j2 := by simpa using hjc.symm
          subst hjv
          exact ((h k2).1 jc hin).1
        · rw [if_neg hk] at hjc
          exact (h k).2 jc hjc
    · simp only [storeStep, if_neg hin]
      exact h

theorem storeInv_foldl : ∀ (es : List StoreEvent) (s : StoreModel), StoreInv s →
    StoreInv (es.foldl storeStep s)
  | [], _, h => h
  | e :: es, s, h => storeInv_foldl es _ (storeInv_step s e h)

theorem committed_mono_step (s : StoreModel) (e : StoreEvent) (h : StoreInv s) (k jc : Nat)
    (hc : s.committed k = some jc) :
    ∃ jc2, (storeStep s e).committed k = some jc2 ∧ jc ≤ jc2 := by
  cases e with
  | submit k2 => exact ⟨jc, hc, Nat.le_refl jc⟩
  | complete k2 j2 =>
    by_cases hin : s.inflight k2 = some j2
    · simp only [storeStep, if_pos hin]
      by_cases hk : k = k2
      · refine ⟨j2, by rw [if_pos hk], ?_⟩
        have := ((h k2).1 j2 hin).2 jc (hk ▸ hc)
        omega
      · exact ⟨jc, by rw [if_neg hk]; exact hc, Nat.le_refl jc⟩
    · simp only [storeStep, if_neg hin]
      exact ⟨jc, hc, Nat.le_refl jc⟩

theorem committed_mono_foldl : ∀ (es : List StoreEvent) (s : StoreModel), StoreInv s →
    ∀ k jc, s.committed k = some jc →
    ∃ jc2, (es.foldl storeStep s).committed k = some jc2 ∧ jc ≤ jc2
  | [], _, _, _, jc, hc => ⟨jc, hc, Nat.le_refl jc⟩
  | e :: es, s, h, k, jc, hc => by
    obtain ⟨jc1, hc1, hle1⟩ := committed_mono_step s e h k jc hc
    obtain ⟨jc2, hc2, hle2⟩ := committed_mono_foldl es (storeStep s e) (storeInv_step s e h) k
      jc1 hc1
    exact ⟨jc2, hc2, Nat.le_trans hle1 hle2⟩

theorem superseded_never_commits (k j : Nat) : ∀ (es2 : List StoreEvent) (s : StoreModel),
    StoreInv s → j < s.nextJob → s.inflight k ≠ some j → s.committed k ≠ some j →
    (es2.foldl storeStep s).committed k ≠ some j := by
  intro es2
  induction es2 with
  | nil => intro s _ _ _ hcom; exact hcom
  | cons e es2 ih =>
    intro s hInv hlt hinf hcom
    refine ih (storeStep s e) (storeInv_step s e hInv) ?_ ?_ ?_
    · cases e with
      | submit k2 => simp [storeStep]; omega
      | complete k2 j2 =>
        by_cases hin : s.inflight k2 = some j2 <;>
          simp [storeStep, hin] <;> omega
    · cases e with
      | submit k2 =>
        simp only [storeStep]
        by_cases hk : k = k2
        · rw [if_pos hk]; intro hcon; simp at hcon; omega
        · rw [if_neg hk]; exact hinf
      | complete k2 j2 =>
        by_cases hin : s.inflight k2 = some j2
        · simp only [storeStep, if_pos hin]
          by_cases hk : k = k2
          · rw [if_pos hk]; simp
          · rw [if_neg hk]; exact hinf
        · simp only [storeStep, if_neg hin]; exact hinf
    · cases e with
      | submit k2 => exact hcom
      | complete k2 j2 =>
        by_cases hin : s.inflight k2 = some j2
        · simp only [storeStep, if_pos hin]
          by_cases hk : k = k2
          · rw [if_pos hk]
            intro hcon
            apply hinf
            rw [hk, hin]
            simpa using hcon
          · rw [if_neg hk]; exact hcom
        · simp only [storeStep, if_neg hin]; exact hcom

/-- C2: for every provenance key, a new submit removes the previously
started, still-pending job's ability to commit — in every interleaving
the superseded job's generation is never committed after the new submit —
and the committed generation for a key never decreases, so a superseded
job never replaces a result committed by a more recently started job. -/
theorem C2_supersession :
    (∀ (es : List StoreEvent) (k j : Nat), (runStore es).inflight k = some j →
      ∀ es2 : List StoreEvent,
        (runStore (es ++ StoreEvent.submit k :: es2)).committed k ≠ some j) ∧
    (∀ (es es2 : List StoreEvent) (k jc j2 : Nat), (runStore es).committed k = some jc →
      (runStore (es ++ es2)).committed k = some j2 → jc ≤ j2) := by
  constructor
  · intro es k j hj es2
    have hInv : StoreInv (runStore es) := storeInv_foldl es initStore storeInv_init
    have hrun : runStore (es ++ StoreEvent.submit k :: es2) =
        es2.foldl storeStep (storeStep (runStore es) (.submit k)) := by
      simp [runStore, List.foldl_append]
    rw [hrun]
    obtain ⟨hlt, hcomlt⟩ := (hInv k).1 j hj
    refine superseded_never_commits k j es2 _
      (storeInv_step _ _ hInv) ?_ ?_ ?_
    · simp [storeStep]; omega
    · simp only [storeStep, if_pos rfl]
      intro hcon
      simp at hcon
      omega
    · intro hcon
      have := hcomlt j hcon
      omega
  · intro es es2 k jc j2 hc hc2
    have hInv : StoreInv (runStore es) := storeInv_foldl es initStore storeInv_init
    have hrun : runStore (es ++ es2) = es2.foldl storeStep (runStore es) := by
      simp [runStore, List.foldl_append]
    rw [hrun] at hc2
    obtain ⟨jc3, hc3, hle⟩ := committed_mono_foldl es2 (runStore es) hInv k jc hc
    rw [hc3] at hc2
    have : jc3 = j2 := by simpa using hc2
    omega

/-- C2 witness: with one submitted job for key 0 that is then superseded
by a second submit and a completion attempt of the old generation 0, the
cache never holds generation 0. -/
theorem C2_supersession_witness :
    (runStore ([.submit 0] ++ StoreEvent.submit 0 :: [.complete 0 0])).committed 0 ≠ some 0 :=
  C2_supersession.1 [.submit 0] 0 0 rfl [.complete 0 0]

/-- C10: equality of `AssistantPatch` compares the edits by `Arc`
allocation identity: two patches with equal range, title, edit slices,
and even status compare unequal when the allocations differ; conversely
an equality implies equal range, title, and (same allocation, hence) the
same edit slice — so patch equality is strictly finer than structural
equality of its fields. -/
theorem C10_pointer_equality :
    (∃ p q2 : AssistantPatch, p.range = q2.range ∧ p.title = q2.title ∧
      p.edits.val = q2.edits.val ∧ p.status = q2.status ∧ assistantPatchEq p q2 = false) ∧
    (∀ p q2 : AssistantPatch, assistantPatchEq p q2 = true →
      (p.edits.allocId = q2.edits.allocId → p.edits.val = q2.edits.val) →
      p.range = q2.range ∧ p.title = q2.title ∧ p.edits.val = q2.edits.val) := by
  constructor
  · exact ⟨⟨⟨⟨0, .left⟩, ⟨0, .right⟩⟩, [], ⟨0, []⟩, .pending⟩,
      ⟨⟨⟨0, .left⟩, ⟨0, .right⟩⟩, [], ⟨1, []⟩, .pending⟩, rfl, rfl, rfl, rfl, by decide⟩
  · intro p q2 heq hcoh
    simp only [assistantPatchEq, arcPtrEq, Bool.and_eq_true, beq_iff_eq] at heq
    obtain ⟨⟨hr, ht⟩, hid⟩ := heq
    exact ⟨hr, ht, hcoh hid⟩

/-- C10 witness: two patches sharing the same allocation (differing only
in status, which patch equality ignores) have the same edit slice. -/
theorem C10_pointer_equality_witness :
    (⟨⟨⟨0, .left⟩, ⟨1, .right⟩⟩, [104], ⟨5, [⟨3, .delete [120]⟩]⟩, .pending⟩
        : AssistantPatch).edits.val =
      (⟨⟨⟨0, .left⟩, ⟨1, .right⟩⟩, [104], ⟨5, [⟨3, .delete [120]⟩]⟩, .ready⟩
        : AssistantPatch).edits.val :=
  (C10_pointer_equality.2
    ⟨⟨⟨0, .left⟩, ⟨1, .right⟩⟩, [104], ⟨5, [⟨3, .delete [120]⟩]⟩, .pending⟩
    ⟨⟨⟨0, .left⟩, ⟨1, .right⟩⟩, [104], ⟨5, [⟨3, .delete [120]⟩]⟩, .ready⟩
    (by decide) (fun _ => rfl)).2.2

/-- C7: characterization of `try_merge`.  When A's range does not fully
contain B's the merge fails with no mutation; when it does and B is
zero-width starting exactly at A's start, B's text is prepended to A's
with a line break, A's start moves to B's start, and descriptions (when
both present) concatenate with B's first; otherwise only descriptions
concatenate (A's first) and A's range and text are unchanged. -/
theorem C7_containment_merge (a b : ResolvedEdit) :
    ((anchorCmp a.range.start b.range.start = .gt ∨
        anchorCmp a.range.stop b.range.stop = .lt) → tryMerge a b = none) ∧
    (¬(anchorCmp a.range.start b.range.start = .gt ∨
        anchorCmp a.range.stop b.range.stop = .lt) →
      b.range.start.offset = b.range.stop.offset →
      b.range.start.offset = a.range.start.offset →
      tryMerge a b = some { a with
        new_text := b.new_text ++ 10 :: a.new_text,
        range := ⟨b.range.start, a.range.stop⟩,
        description := match a.description, b.description with
          | some d, some od => some (od ++ 10 :: d)
          | d, _ => d }) ∧
    (¬(anchorCmp a.range.start b.range.start = .gt ∨
        anchorCmp a.range.stop b.range.stop = .lt) →
      ¬(b.range.start.offset = b.range.stop.offset ∧
        b.range.start.offset = a.range.start.offset) →
      tryMerge a b = some { a with
        description := match a.description, b.description with
          | some d, some od => some (d ++ 10 :: od)
          | d, _ => d }) := by
  refine ⟨?_, ?_, ?_⟩
  · intro h
    simp only [tryMerge]
    rw [if_pos h]
  · intro h h1 h2
    simp only [tryMerge]
    rw [if_neg h, if_pos ⟨h1, h2⟩]
  · intro h h2
    simp only [tryMerge]
    rw [if_neg h, if_neg h2]

/-- C7 witness: a zero-width edit B at the start of a containing edit A
merges by prepending B's text with a line break, moving A's start to B's
start, and concatenating descriptions with B's first. -/
theorem C7_containment_merge_witness :
    tryMerge ⟨⟨⟨0, .left⟩, ⟨5, .right⟩⟩, [120], some [100]⟩
        ⟨⟨⟨0, .left⟩, ⟨0, .left⟩⟩, [121], some [101]⟩ =
      some ⟨⟨⟨0, .left⟩, ⟨5, .right⟩⟩, [121, 10, 120], some [101, 10, 100]⟩ := by
  have h := (C7_containment_merge ⟨⟨⟨0, .left⟩, ⟨5, .right⟩⟩, [120], some [100]⟩
    ⟨⟨⟨0, .left⟩, ⟨0, .left⟩⟩, [121], some [101]⟩).2.1 (by decide) (by decide) (by decide)
  simpa using h

theorem insertEdit_mem : ∀ (es : List LocatedEdit) (e x : LocatedEdit),
    x ∈ insertEdit es e → x = e ∨ x ∈ es := by
  intro es
  induction es with
  | nil => intro e x h; simp [insertEdit] at h; exact Or.inl h
  | cons y ys ih =>
    intro e x h
    simp only [insertEdit] at h
    by_cases h1 : e.range.start < y.range.start
    · rw [if_pos h1] at h
      rcases List.mem_cons.mp h with h2 | h2
      · exact Or.inl h2
      · exact Or.inr h2
    · rw [if_neg h1] at h
      by_cases h2 : e.range.start = y.range.start
      · rw [if_pos h2] at h
        rcases List.mem_cons.mp h with h3 | h3
        · exact Or.inl h3
        · exact Or.inr (List.mem_cons_of_mem y h3)
      · rw [if_neg h2] at h
        rcases List.mem_cons.mp h with h3 | h3
        · exact Or.inr (h3 ▸ List.mem_cons_self y ys)
        · rcases ih e x h3 with h4 | h4
          · exact Or.inl h4
          · exact Or.inr (List.mem_cons_of_mem y h4)

theorem insertEdit_pairwise : ∀ (es : List LocatedEdit) (e : LocatedEdit),
    List.Pairwise (fun x y => x.range.start < y.range.start) es →
    List.Pairwise (fun x y => x.range.start < y.range.start) (insertEdit es e) := by
  intro es
  induction es with
  | nil => intro e _; simp [insertEdit]
  | cons x xs ih =>
    intro e h
    rw [List.pairwise_cons] at h
    obtain ⟨hx, hxs⟩ := h
    simp only [insertEdit]
    split
    · rename_i hlt
      rw [List.pairwise_cons]
      refine ⟨?_, List.pairwise_cons.mpr ⟨hx, hxs⟩⟩
      intro y hy
      rcases List.mem_cons.mp hy with hy | hy
      · subst hy; omega
      · have := hx y hy
        omega
    · split
      · rename_i hne heq
        rw [List.pairwise_cons]
        refine ⟨fun y hy => ?_, hxs⟩
        have := hx y hy
        omega
      · rename_i hne1 hne2
        rw [List.pairwise_cons]
        refine ⟨fun y hy => ?_, ih e hxs⟩
        rcases insertEdit_mem xs e y hy with hy2 | hy2
        · subst hy2; omega
        · exact hx y hy2

theorem pairwiseAll_insertAt {P : LocatedPatchBuffer → Prop} (outputs : List LocatedPatchBuffer)
    (ix : Nat) (nb : LocatedPatchBuffer) (h : ∀ buf ∈ outputs, P buf) (hnb : P nb) :
    ∀ buf ∈ outputs.take ix ++ nb :: outputs.drop ix, P buf := by
  intro buf hbuf
  rcases List.mem_append.mp hbuf with h1 | h1
  · exact h buf (List.mem_of_mem_take h1)
  · rcases List.mem_cons.mp h1 with h2 | h2
    · exact h2 ▸ hnb
    · exact h buf (List.mem_of_mem_drop h2)

theorem pairwiseAll_set {P : LocatedPatchBuffer → Prop} (outputs : List LocatedPatchBuffer)
    (ix : Nat) (nb : LocatedPatchBuffer) (h : ∀ buf ∈ outputs, P buf) (hnb : P nb) :
    ∀ buf ∈ outputs.set ix nb, P buf := by
  intro buf hbuf
  rcases List.mem_or_eq_of_mem_set hbuf with h1 | h1
  · exact h buf h1
  · exact h1 ▸ hnb

theorem getD_sorted {P : List LocatedEdit → Prop} (outputs : List LocatedPatchBuffer) (ix : Nat)
    (d : LocatedPatchBuffer) (h : ∀ buf ∈ outputs, P buf.edits) (hd : P d.edits) :
    P (outputs.getD ix d).edits := by
  rcases Nat.lt_or_ge ix outputs.length with hlt | hge
  · rw [List.getD_eq_getElem?_getD, List.getElem?_eq_getElem hlt]
    exact h _ (List.getElem_mem hlt)
  · rw [List.getD_eq_getElem?_getD, List.getElem?_eq_none hge]
    exact hd

theorem locateStep_sorted (oi : List AssistantEdit) (ob : List LocatedPatchBuffer)
    (env : Nat → Option (List Nat)) (st : LocState) (ie : Nat × AssistantEdit)
    (h : OutputsSorted st) : OutputsSorted (locateStep oi ob env st ie) := by
  unfold OutputsSorted at h ⊢
  simp only [locateStep]
  split
  · exact h
  · rename_i outs ixv heq
    have hout : ∀ buf ∈ outs,
        List.Pairwise (fun x y => x.range.start < y.range.start) buf.edits := by
      split at heq
      · cases heq
        exact h
      · split at heq
        · cases heq
        · cases heq
          exact pairwiseAll_insertAt _ _ _ h (by simp)
    apply pairwiseAll_set
    · exact hout
    · exact insertEdit_pairwise _ _ (getD_sorted _ _ _ hout (by simp))

theorem locateFold_sorted (oi : List AssistantEdit) (ob : List LocatedPatchBuffer)
    (env : Nat → Option (List Nat)) :
    ∀ (l : List (Nat × AssistantEdit)) (st : LocState), OutputsSorted st →
    OutputsSorted (l.foldl (locateStep oi ob env) st)
  | [], _, h => h
  | ie :: l, st, h => locateFold_sorted oi ob env l _ (locateStep_sorted oi ob env st ie h)

theorem findIdxq_some_lt {α : Type} (p : α → Bool) :
    ∀ (l : List α) (s i : Nat), List.findIdx? p l s = some i → i < s + l.length := by
  intro l
  induction l with
  | nil => intro s i h; simp [List.findIdx?] at h
  | cons x xs ih =>
    intro s i h
    rw [List.findIdx?_cons] at h
    by_cases hp : p x
    · rw [if_pos hp] at h
      cases h
      simp only [List.length_cons]
      omega
    · rw [if_neg hp] at h
      have := ih (s + 1) i h
      simp only [List.length_cons]
      omega

theorem findIdxq_lt {α : Type} (p : α → Bool) (l : List α) (i : Nat)
    (h : l.findIdx? p = some i) : i < l.length := by
  have := findIdxq_some_lt p l 0 i h
  omega

theorem insertEdit_replaces : ∀ (es : List LocatedEdit) (e : LocatedEdit),
    List.Pairwise (fun x y => x.range.start < y.range.start) es →
    ∀ x ∈ es, x.range.start = e.range.start →
    insertEdit es e = es.map fun y => if y.range.start = e.range.start then e else y := by
  intro es
  induction es with
  | nil => intro e _ x hx; simp at hx
  | cons y ys ih =>
    intro e h x hx hxe
    rw [List.pairwise_cons] at h
    obtain ⟨hy, hys⟩ := h
    rcases List.mem_cons.mp hx with hx1 | hx1
    · subst hx1
      have hmap : ys.map (fun y2 => if y2.range.start = e.range.start then e else y2) = ys := by
        have hfix : ∀ z ∈ ys, (if z.range.start = e.range.start then e else z) = z := by
          intro z hz
          rw [if_neg]
          have := hy z hz
          omega
        calc ys.map (fun y2 => if y2.range.start = e.range.start then e else y2)
            = ys.map id := List.map_congr_left hfix
          _ = ys := List.map_id ys
      simp only [insertEdit]
      rw [if_neg (by omega), if_pos hxe.symm, List.map_cons, if_pos hxe, hmap]
    · have hylt : y.range.start < e.range.start := by
        have := hy x hx1
        omega
      simp only [insertEdit]
      rw [if_neg (by omega), if_neg (by omega), List.map_cons, if_neg (by omega),
        ih e hys x hx1 hxe]

/-- C8: after processing any number of input edits (any prefix of the
enumerated edit list, and in particular the full `locate_patch` run),
every output buffer's edit list is strictly sorted by range start — so
starts are unique — and inserting a located edit whose start offset
equals an existing entry's replaces that entry (the later write wins). -/
theorem C8_sorted_unique :
    (∀ (inputs oldInputs : List AssistantEdit) (oldBuffers : List LocatedPatchBuffer)
      (env : Nat → Option (List Nat)) (k : Nat) (buf : LocatedPatchBuffer),
      buf ∈ ((inputs.enum.take k).foldl (locateStep oldInputs oldBuffers env)
        ⟨[], []⟩).outputs →
      List.Pairwise (fun x y => x.range.start < y.range.start) buf.edits) ∧
    (∀ (inputs oldInputs : List AssistantEdit) (oldBuffers : List LocatedPatchBuffer)
      (env : Nat → Option (List Nat)) (buf : LocatedPatchBuffer),
      buf ∈ (locatePatch inputs oldInputs oldBuffers env).outputs →
      List.Pairwise (fun x y => x.range.start < y.range.start) buf.edits) ∧
    (∀ (es : List LocatedEdit) (e : LocatedEdit),
      List.Pairwise (fun x y => x.range.start < y.range.start) es →
      ∀ x ∈ es, x.range.start = e.range.start →
      insertEdit es e = es.map fun y => if y.range.start = e.range.start then e else y) := by
  refine ⟨?_, ?_, insertEdit_replaces⟩
  · intro inputs oi ob env k buf hbuf
    exact locateFold_sorted oi ob env _ ⟨[], []⟩
      (fun b2 hb2 => absurd hb2 (List.not_mem_nil b2)) buf hbuf
  · intro inputs oi ob env buf hbuf
    exact locateFold_sorted oi ob env _ ⟨[], []⟩
      (fun b2 hb2 => absurd hb2 (List.not_mem_nil b2)) buf hbuf

/-- C8 witness: inserting an edit with start 0 into a sorted two-edit
list with starts 0 and 5 replaces the first entry and keeps the list
sorted with unique starts. -/
theorem C8_sorted_unique_witness :
    insertEdit [⟨⟨0, 3⟩, [97], none, 0⟩, ⟨⟨5, 7⟩, [98], none, 1⟩] ⟨⟨0, 4⟩, [99], none, 2⟩ =
      [⟨⟨0, 4⟩, [99], none, 2⟩, ⟨⟨5, 7⟩, [98], none, 1⟩] := by
  have h := C8_sorted_unique.2.2 [⟨⟨0, 3⟩, [97], none, 0⟩, ⟨⟨5, 7⟩, [98], none, 1⟩]
    ⟨⟨0, 4⟩, [99], none, 2⟩ (by simp) ⟨⟨0, 3⟩, [97], none, 0⟩ (by simp) rfl
  simpa using h

theorem mem_set_self {α : Type} (l : List α) (n : Nat) (a : α) (h : n < l.length) :
    a ∈ l.set n a := by
  have hn : n < (l.set n a).length := by simpa using h
  have hget : (l.set n a)[n] = a := List.getElem_set_self hn
  have hmem := List.getElem_mem hn
  rwa [hget] at hmem

theorem insertEdit_self_mem : ∀ (es : List LocatedEdit) (e : LocatedEdit), e ∈ insertEdit es e := by
  intro es
  induction es with
  | nil => intro e; simp [insertEdit]
  | cons x xs ih =>
    intro e
    simp only [insertEdit]
    by_cases h1 : e.range.start < x.range.start
    · rw [if_pos h1]; exact List.mem_cons_self e _
    · rw [if_neg h1]
      by_cases h2 : e.range.start = x.range.start
      · rw [if_pos h2]; exact List.mem_cons_self e _
      · rw [if_neg h2]; exact List.mem_cons_of_mem x (ih e)

theorem takeWhileLen_le {α : Type} (p : α → Bool) : ∀ l : List α, (l.takeWhile p).length ≤ l.length := by
  intro l
  induction l with
  | nil => simp
  | cons x xs ih =>
    rw [List.takeWhile_cons]
    split
    · simp only [List.length_cons]; omega
    · simp

/-- C5 (amended): in the incremental locator, an edit is reused exactly
when the FIRST structurally-equal position in the previous revision's
input list has a located edit with that source index in the previous
buffer for the path: then no fresh location happens and the previous
edit's range and text are inserted verbatim (with the source index
updated); otherwise, when a buffer is obtainable, the edit is located
freshly, and when no content can be obtained the edit is skipped. -/
theorem C5_amended_reuse (oldInputs : List AssistantEdit) (oldBuffers : List LocatedPatchBuffer)
    (env : Nat → Option (List Nat)) (st : LocState) (i : Nat) (e : AssistantEdit) :
    (∀ oldEdit : LocatedEdit,
      ((oldInputs.findIdx? (fun oe => oe == e)).bind fun pos =>
        (oldBuffers.find? (fun b2 => b2.path == e.path)).bind fun ob =>
          ob.edits.find? (fun oldEdit2 => oldEdit2.input_ix == pos)) = some oldEdit →
      (locateStep oldInputs oldBuffers env st (i, e)).fresh = st.fresh ∧
      ∃ buf ∈ (locateStep oldInputs oldBuffers env st (i, e)).outputs,
        { oldEdit with input_ix := i } ∈ buf.edits) ∧
    (((oldInputs.findIdx? (fun oe => oe == e)).bind fun pos =>
        (oldBuffers.find? (fun b2 => b2.path == e.path)).bind fun ob =>
          ob.edits.find? (fun oldEdit2 => oldEdit2.input_ix == pos)) = none →
      (((st.outputs.findIdx? (fun b2 => b2.path == e.path)).isSome ∨
          (oldBuffers.find? (fun b2 => b2.path == e.path)).isSome ∨ (env e.path).isSome) →
        (locateStep oldInputs oldBuffers env st (i, e)).fresh = st.fresh ++ [i]) ∧
      (st.outputs.findIdx? (fun b2 => b2.path == e.path) = none →
        oldBuffers.find? (fun b2 => b2.path == e.path) = none → env e.path = none →
        locateStep oldInputs oldBuffers env st (i, e) = st)) := by
  constructor
  · intro oldEdit hre
    obtain ⟨pos, hpos, hob⟩ := Option.bind_eq_some.mp hre
    obtain ⟨ob2, hob2, hfind⟩ := Option.bind_eq_some.mp hob
    rcases hidx : st.outputs.findIdx? (fun b2 => b2.path == e.path) with _ | ix
    · constructor
      · show (locateStep oldInputs oldBuffers env st (i, e)).fresh = st.fresh
        simp only [locateStep]
        rw [hre, hidx, hob2]
        rfl
      · simp only [locateStep]
        rw [hre, hidx, hob2]
        refine ⟨_, mem_set_self _ _ _ ?_, insertEdit_self_mem _ _⟩
        have h1 : (st.outputs.takeWhile (fun b2 => decide (b2.path < e.path))).length ≤
            st.outputs.length := takeWhileLen_le _ _
        simp only [List.length_append, List.length_take, List.length_cons, List.length_drop]
        omega
    · constructor
      · show (locateStep oldInputs oldBuffers env st (i, e)).fresh = st.fresh
        simp only [locateStep]
        rw [hre, hidx]
        rfl
      · simp only [locateStep]
        rw [hre, hidx]
        exact ⟨_, mem_set_self _ _ _ (findIdxq_lt _ _ _ hidx), insertEdit_self_mem _ _⟩
  · intro hnone
    constructor
    · intro hsome
      rcases hidx : st.outputs.findIdx? (fun b2 => b2.path == e.path) with _ | ix
      · rcases hob : oldBuffers.find? (fun b2 => b2.path == e.path) with _ | ob2
        · rcases henv : env e.path with _ | cont
          · rw [hidx, hob, henv] at hsome
            simp at hsome
          · show (locateStep oldInputs oldBuffers env st (i, e)).fresh = st.fresh ++ [i]
            simp only [locateStep]
            rw [hnone, hidx, hob, henv]
            rfl
        · show (locateStep oldInputs oldBuffers env st (i, e)).fresh = st.fresh ++ [i]
          simp only [locateStep]
          rw [hnone, hidx, hob]
          rfl
      · show (locateStep oldInputs oldBuffers env st (i, e)).fresh = st.fresh ++ [i]
        simp only [locateStep]
        rw [hnone, hidx]
        rfl
    · intro h1 h2 h3
      simp only [locateStep]
      rw [h1, h2, h3]

/-- C5 (amended) witness: with a previous revision whose located buffer
holds an edit with source index 0 for the structurally-equal spec at
position 0, the step reuses it and performs no fresh location. -/
theorem C5_amended_reuse_witness :
    (locateStep [⟨0, .update [120] [121] none⟩]
      [⟨0, [120], [⟨⟨0, 1⟩, [121], none, 0⟩]⟩]
      (fun p => if p = 0 then some [120] else none)
      ⟨[], []⟩ (0, ⟨0, .update [120] [121] none⟩)).fresh = [] :=
  ((C5_amended_reuse [⟨0, .update [120] [121] none⟩]
    [⟨0, [120], [⟨⟨0, 1⟩, [121], none, 0⟩]⟩]
    (fun p => if p = 0 then some [120] else none)
    ⟨[], []⟩ 0 ⟨0, .update [120] [121] none⟩).1
    ⟨⟨0, 1⟩, [121], none, 0⟩ (by decide)).1

/-- C5: the claim states that an edit spec structurally equal to one at
SOME position of the previous input list, with a previous located edit of
that source index, is reused with no new alignment.  Counterexample: the
previous revision contained the same spec twice; both located to the same
start, so the second replaced the first and the stored located edit has
source index 1.  Resubmitting the spec finds ONLY the first equal
position (0), whose located edit was overwritten, so the code performs a
fresh alignment — the instrumented fresh list is `[0]` — even though the
claim's eligibility condition holds at position 1. -/
theorem C5_counterexample :
    ((locatePatch [⟨0, .update [120] [121] none⟩]
        [⟨0, .update [120] [121] none⟩, ⟨0, .update [120] [121] none⟩]
        (locatePatch [⟨0, .update [120] [121] none⟩, ⟨0, .update [120] [121] none⟩] [] []
          (fun p => if p = 0 then some [120] else none)).outputs
        (fun p => if p = 0 then some [120] else none)).fresh = [0]) ∧
    ([(⟨0, .update [120] [121] none⟩ : AssistantEdit), ⟨0, .update [120] [121] none⟩].getD 1
        ⟨1, .delete []⟩ = ⟨0, .update [120] [121] none⟩) ∧
    (((locatePatch [⟨0, .update [120] [121] none⟩, ⟨0, .update [120] [121] none⟩] [] []
        (fun p => if p = 0 then some [120] else none)).outputs.getD 0
          ⟨9, [], []⟩).edits.map (fun le => le.input_ix) = [1]) := by
  refine ⟨by decide, by decide, by decide⟩


theorem lines_length_pos (b : List Nat) : 1 ≤ (lines b).length := by
  cases hl : lines b with
  | nil => exact absurd hl (lines_ne_nil b)
  | cons l ls => simp

theorem lines_cons_nl (rest : List Nat) : lines (10 :: rest) = [] :: lines rest := by
  simp [lines]

theorem maxRow_cons_nl (rest : List Nat) : maxRow (10 :: rest) = maxRow rest + 1 := by
  have h := lines_length_pos rest
  unfold maxRow
  rw [lines_cons_nl]
  simp only [List.length_cons]
  omega

theorem maxRow_cons_other (c : Nat) (rest : List Nat) (hc : (c == 10) = false) :
    maxRow (c :: rest) = maxRow rest := by
  unfold maxRow
  simp only [lines, hc, Bool.false_eq_true, if_false]
  obtain ⟨l, ls, hl⟩ := List.exists_cons_of_ne_nil (lines_ne_nil rest)
  rw [hl]
  simp

theorem offsetToPoint_row_le : ∀ (b : List Nat) (o : Nat), o ≤ b.length →
    (offsetToPoint b o).row ≤ maxRow b := by
  intro b
  induction b with
  | nil =>
    intro o h
    have ho : o = 0 := by simpa using h
    subst ho
    simp [offsetToPoint, maxRow, lines]
  | cons c rest ih =>
    intro o h
    cases o with
    | zero => simp [offsetToPoint]
    | succ o2 =>
      have h2 : o2 ≤ rest.length := by simpa using h
      have hp := ih o2 h2
      by_cases hc : (c == 10) = true
      · have hc10 : c = 10 := by simpa using hc
        subst hc10
        rw [maxRow_cons_nl]
        simp only [offsetToPoint, if_pos]
        show (offsetToPoint rest o2).row + 1 ≤ maxRow rest + 1
        omega
      · rw [maxRow_cons_other c rest (by simpa using hc)]
        simp only [offsetToPoint]
        rw [if_neg hc]
        by_cases hrow : ((offsetToPoint rest o2).row == 0) = true
        · rw [if_pos hrow]
          exact Nat.zero_le _
        · rw [if_neg hrow]
          exact hp

theorem lineStartOff_add_le (b : List Nat) (r : Nat) : ∀ d : Nat,
    lineStartOff b r ≤ lineStartOff b (r + d)
  | 0 => Nat.le_refl _
  | d + 1 => by
    have h1 := lineStartOff_add_le b r d
    have h2 : lineStartOff b (r + d) ≤ lineStartOff b (r + d + 1) := by
      show lineStartOff b (r + d) ≤ lineStartOff b (r + d) + lineLen b (r + d) + 1
      omega
    show lineStartOff b r ≤ lineStartOff b (r + d + 1)
    omega

theorem lineStartOff_mono (b : List Nat) {r r2 : Nat} (h : r ≤ r2) :
    lineStartOff b r ≤ lineStartOff b r2 := by
  obtain ⟨d, hd⟩ := Nat.le.dest h
  subst hd
  exact lineStartOff_add_le b r d

theorem lineEnd_lt_lineStart (b : List Nat) {r r2 : Nat} (h : r < r2) :
    lineStartOff b r + lineLen b r < lineStartOff b r2 := by
  have h1 : lineStartOff b (r + 1) ≤ lineStartOff b r2 := lineStartOff_mono b h
  have h2 : lineStartOff b (r + 1) = lineStartOff b r + lineLen b r + 1 := rfl
  omega

theorem anchorCmp_right_left_lt (o1 o2 : Nat) :
    (anchorCmp ⟨o1, .right⟩ ⟨o2, .left⟩ = Ordering.lt) ↔ o1 < o2 := by
  show ((compare o1 o2).then (compare 1 0) = Ordering.lt) ↔ o1 < o2
  rcases Nat.lt_trichotomy o1 o2 with h | h | h
  · rw [Nat.compare_eq_lt.mpr h]
    exact ⟨fun _ => h, fun _ => rfl⟩
  · subst h
    rw [Nat.compare_eq_eq.mpr rfl]
    exact ⟨fun hcon => absurd hcon (by decide), fun hcon => absurd hcon (Nat.lt_irrefl o1)⟩
  · rw [Nat.compare_eq_gt.mpr h]
    exact ⟨fun hcon => absurd hcon (by decide), fun hcon => (Nat.lt_asymm h hcon).elim⟩

theorem groupStep_merge (snap : List Nat) (gs : List ResolvedEditGroup) (g : ResolvedEditGroup)
    (e : ResolvedEdit) (hlast : gs.getLast? = some g)
    (hbias : g.context_range.stop.bias = Bias.right)
    (hle : (contextRangeOf snap e).start.offset ≤ g.context_range.stop.offset) :
    groupStep snap gs e =
      gs.dropLast ++ [⟨⟨g.context_range.start, (contextRangeOf snap e).stop⟩,
        g.edits ++ [e]⟩] := by
  have hstop : g.context_range.stop = ⟨g.context_range.stop.offset, Bias.right⟩ := by
    cases hs : g.context_range.stop with
    | mk o bb =>
      rw [hs] at hbias
      simp only [] at hbias
      rw [hbias]
  have hstart : (contextRangeOf snap e).start =
      ⟨(contextRangeOf snap e).start.offset, Bias.left⟩ := rfl
  unfold groupStep
  rw [hlast]
  dsimp only
  rw [if_neg]
  rw [hstop, hstart, anchorCmp_right_left_lt]
  omega

theorem groupStep_separate (snap : List Nat) (gs : List ResolvedEditGroup)
    (g : ResolvedEditGroup) (e : ResolvedEdit) (hlast : gs.getLast? = some g)
    (hbias : g.context_range.stop.bias = Bias.right)
    (hlt : g.context_range.stop.offset < (contextRangeOf snap e).start.offset) :
    groupStep snap gs e = gs ++ [⟨contextRangeOf snap e, [e]⟩] := by
  have hstop : g.context_range.stop = ⟨g.context_range.stop.offset, Bias.right⟩ := by
    cases hs : g.context_range.stop with
    | mk o bb =>
      rw [hs] at hbias
      simp only [] at hbias
      rw [hbias]
  have hstart : (contextRangeOf snap e).start =
      ⟨(contextRangeOf snap e).start.offset, Bias.left⟩ := rfl
  unfold groupStep
  rw [hlast]
  dsimp only
  rw [if_pos]
  rw [hstop, hstart, anchorCmp_right_left_lt]
  omega

/-- C6: in the grouping pass each edit's context range is its line span
padded five rows up and down, clipped to the document
(`contextRangeOf`); an edit merges into the previous group exactly when
its context range begins at or before that group's context-range end
(extending the group's context end and appending the edit), else a new
group starts; consequently two edits whose line spans are at most 10
rows apart land in one group, and edits at least 11 rows apart land in
two groups kept in document order. -/
theorem C6_grouping (snap : List Nat) (e1 e2 : ResolvedEdit)
    (h2 : e2.range.start.offset ≤ snap.length) :
    (∀ (gs : List ResolvedEditGroup) (g : ResolvedEditGroup) (e : ResolvedEdit),
      gs.getLast? = some g → g.context_range.stop.bias = Bias.right →
      ((contextRangeOf snap e).start.offset ≤ g.context_range.stop.offset →
        groupStep snap gs e = gs.dropLast ++
          [⟨⟨g.context_range.start, (contextRangeOf snap e).stop⟩, g.edits ++ [e]⟩]) ∧
      (g.context_range.stop.offset < (contextRangeOf snap e).start.offset →
        groupStep snap gs e = gs ++ [⟨contextRangeOf snap e, [e]⟩])) ∧
    ((offsetToPoint snap e2.range.start.offset).row ≤
        (offsetToPoint snap e1.range.stop.offset).row + 10 →
      groupingPass snap [e1, e2] =
        [⟨⟨(contextRangeOf snap e1).start, (contextRangeOf snap e2).stop⟩, [e1, e2]⟩]) ∧
    ((offsetToPoint snap e1.range.stop.offset).row + 11 ≤
        (offsetToPoint snap e2.range.start.offset).row →
      groupingPass snap [e1, e2] =
        [⟨contextRangeOf snap e1, [e1]⟩, ⟨contextRangeOf snap e2, [e2]⟩]) := by
  have hr2max : (offsetToPoint snap e2.range.start.offset).row ≤ maxRow snap :=
    offsetToPoint_row_le snap _ h2
  have hpass : groupingPass snap [e1, e2] =
      groupStep snap [⟨contextRangeOf snap e1, [e1]⟩] e2 := rfl
  have hstop1 : (contextRangeOf snap e1).stop.offset =
      lineStartOff snap (min ((offsetToPoint snap e1.range.stop.offset).row + 5) (maxRow snap)) +
        lineLen snap
          (min ((offsetToPoint snap e1.range.stop.offset).row + 5) (maxRow snap)) := rfl
  have hstart2 : (contextRangeOf snap e2).start.offset =
      lineStartOff snap ((offsetToPoint snap e2.range.start.offset).row - 5) := rfl
  refine ⟨fun gs g e hl hb =>
    ⟨groupStep_merge snap gs g e hl hb, groupStep_separate snap gs g e hl hb⟩, ?_, ?_⟩

  · intro hgap
    rw [hpass, groupStep_merge snap _ ⟨contextRangeOf snap e1, [e1]⟩ e2 (by simp) rfl ?_]
    · simp
    · rw [hstart2]
      have hmin : (offsetToPoint snap e2.range.start.offset).row - 5 ≤
          min ((offsetToPoint snap e1.range.stop.offset).row + 5) (maxRow snap) := by
        omega
      calc lineStartOff snap ((offsetToPoint snap e2.range.start.offset).row - 5)
          ≤ lineStartOff snap
              (min ((offsetToPoint snap e1.range.stop.offset).row + 5) (maxRow snap)) :=
            lineStartOff_mono snap hmin
        _ ≤ (contextRangeOf snap e1).stop.offset := by rw [hstop1]; omega
  · intro hgap
    rw [hpass, groupStep_separate snap _ ⟨contextRangeOf snap e1, [e1]⟩ e2 (by simp) rfl ?_]
    · simp
    · rw [hstop1, hstart2]
      have hlt : min ((offsetToPoint snap e1.range.stop.offset).row + 5) (maxRow snap) <
          (offsetToPoint snap e2.range.start.offset).row - 5 := by
        omega
      exact lineEnd_lt_lineStart snap hlt

/-- C6 witness: in a twenty-line document of one-byte lines, edits on
rows 0 and 10 (10 rows apart) land in a single group spanning both
context ranges. -/
theorem C6_grouping_witness :
    groupingPass ((List.replicate 20 [97, 10]).flatten)
      [⟨⟨⟨0, .left⟩, ⟨1, .right⟩⟩, [122], none⟩, ⟨⟨⟨20, .left⟩, ⟨21, .right⟩⟩, [121], none⟩] =
      [⟨⟨(contextRangeOf ((List.replicate 20 [97, 10]).flatten)
            ⟨⟨⟨0, .left⟩, ⟨1, .right⟩⟩, [122], none⟩).start,
         (contextRangeOf ((List.replicate 20 [97, 10]).flatten)
            ⟨⟨⟨20, .left⟩, ⟨21, .right⟩⟩, [121], none⟩).stop⟩,
        [⟨⟨⟨0, .left⟩, ⟨1, .right⟩⟩, [122], none⟩,
         ⟨⟨⟨20, .left⟩, ⟨21, .right⟩⟩, [121], none⟩]⟩] :=
  (C6_grouping ((List.replicate 20 [97, 10]).flatten)
    ⟨⟨⟨0, .left⟩, ⟨1, .right⟩⟩, [122], none⟩
    ⟨⟨⟨20, .left⟩, ⟨21, .right⟩⟩, [121], none⟩ (by decide)).2.1 (by decide)


/-- Any run of `createBranchGo` that returns `.ok` leaves the error list
exactly as it was in the accumulator, preserves every accumulated edit
group, and produces an edit-group entry for every buffer whose path
opens successfully. -/
theorem createBranchGo_ok (env : BranchEnv) : ∀ (bufs : List LocatedPatchBuffer) (n : Nat)
    (acc res : AssistantBranch), createBranchGo env bufs n acc = .ok res →
    res.errors = acc.errors ∧
    (∀ p gs, (p, gs) ∈ acc.edit_groups → (p, gs) ∈ res.edit_groups) ∧
    (∀ pb ∈ bufs, (∃ live, env.openBuf pb.path = .opened live) →
      ∃ gs, (pb.path, gs) ∈ res.edit_groups) := by
  intro bufs
  induction bufs with
  | nil =>
    intro n acc res h
    simp only [createBranchGo] at h
    cases h
    exact ⟨rfl, fun p gs hp => hp, fun pb hpb => absurd hpb (List.not_mem_nil pb)⟩
  | cons pb rest ih =>
    intro n acc res h
    simp only [createBranchGo] at h
    rcases ho : env.openBuf pb.path with _ | _ | live
    · rw [ho] at h
      obtain ⟨he, hmono, hrest⟩ := ih n acc res h
      refine ⟨he, hmono, ?_⟩
      intro pb2 hpb2 hop
      rcases List.mem_cons.mp hpb2 with h1 | h1
      · obtain ⟨live2, hlive⟩ := hop
        rw [h1, ho] at hlive
        cases hlive
      · exact hrest pb2 h1 hop
    · rw [ho] at h
      cases h
    · rw [ho] at h
      obtain ⟨he, hmono, hrest⟩ := ih _ _ res h
      refine ⟨he, ?_, ?_⟩
      · intro p gs hp
        exact hmono p gs (by simp only [List.mem_append]; exact Or.inl hp)
      · intro pb2 hpb2 hop
        rcases List.mem_cons.mp hpb2 with h1 | h1
        · subst h1
          exact ⟨_, hmono _ _ (List.mem_append_right _ (List.mem_singleton_self _))⟩
        · exact hrest pb2 h1 hop

/-- If any buffer in the list fails to open (the awaited open task
errors), the whole materialization aborts with an error, regardless of
how many other buffers were processed. -/
theorem createBranchGo_err (env : BranchEnv) : ∀ (bufs : List LocatedPatchBuffer) (n : Nat)
    (acc : AssistantBranch), (∃ pb ∈ bufs, env.openBuf pb.path = .openErr) →
    createBranchGo env bufs n acc = .error () := by
  intro bufs
  induction bufs with
  | nil =>
    intro n acc h
    obtain ⟨pb, hpb, _⟩ := h
    exact absurd hpb (List.not_mem_nil pb)
  | cons pb rest ih =>
    intro n acc h
    simp only [createBranchGo]
    rcases ho : env.openBuf pb.path with _ | _ | live
    · obtain ⟨pb2, hpb2, herr⟩ := h
      rcases List.mem_cons.mp hpb2 with h1 | h1
      · rw [h1, ho] at herr; cases herr
      · exact ih n acc ⟨pb2, h1, herr⟩
    · rfl
    · obtain ⟨pb2, hpb2, herr⟩ := h
      rcases List.mem_cons.mp hpb2 with h1 | h1
      · rw [h1, ho] at herr; cases herr
      · exact ih _ _ ⟨pb2, h1, herr⟩

/-- C1 counterexample: a two-file located patch whose second path has no
obtainable buffer (the claimed one-unresolvable-path scenario).  The
materialization succeeds, the resolvable file (path 0) does receive its
edit groups, but the error list is empty -- not the claimed exactly one
`ResolutionError`: the source never pushes into `errors`, it silently
`continue`s on a `None` open task. -/
theorem C1_counterexample :
    ((createBranchForPatch
        [⟨0, [97, 10, 98], [⟨⟨0, 1⟩, [122], none, 0⟩]⟩, ⟨1, [99], [⟨⟨0, 1⟩, [119], none, 1⟩]⟩]
        ⟨fun p => if p = 0 then .opened [97, 10, 98] else .noBuffer,
         fun _ => [], fun _ => none⟩).toOption.map
      (fun r => (r.errors.length, r.edit_groups.map Prod.fst))) = some (0, [0]) ∧
    (0 : Nat) ≠ 1 := by
  refine ⟨by decide, by decide⟩

/-- C1: amended error-handling contract of `create_branch_for_patch`.
A successful materialization always returns an empty error list (no
failure is ever recorded as a `ResolutionError`); files whose open task
is `None` are silently skipped while every file whose buffer opens gets
an edit-group entry; and a failed buffer open aborts the whole
materialization with `Err` instead of continuing. -/
theorem C1_amended_errors (bufs : List LocatedPatchBuffer) (env : BranchEnv) :
    (∀ res, createBranchForPatch bufs env = .ok res →
      res.errors = [] ∧
      ∀ pb ∈ bufs, (∃ live, env.openBuf pb.path = .opened live) →
        ∃ gs, (pb.path, gs) ∈ res.edit_groups) ∧
    ((∃ pb ∈ bufs, env.openBuf pb.path = .openErr) →
      createBranchForPatch bufs env = .error ()) := by
  constructor
  · intro res h
    obtain ⟨he, _, hall⟩ := createBranchGo_ok env bufs 0 ⟨[], []⟩ res h
    exact ⟨he, hall⟩
  · exact createBranchGo_err env bufs 0 ⟨[], []⟩

/-- C1 witness: a one-file patch whose buffer open fails makes the whole
materialization return an error. -/
theorem C1_amended_errors_witness :
    createBranchForPatch [⟨0, [97], []⟩]
      ⟨fun _ => .openErr, fun _ => [], fun _ => none⟩ = .error () :=
  (C1_amended_errors _ _).2 ⟨⟨0, [97], []⟩, by simp, rfl⟩


end ZedPatch
